import Mathlib

/-!
Shallow embedding of `src/bin_packer.py` (classes `BinItem`, `BinContainer`,
`BinManager`) and verification of its specification.

Modelling conventions:
- A `BinItem` is a plain natural number (its `unit_height`); the Python class
  is an `int` subclass and all arithmetic on items is integer arithmetic on
  the value.
- Python list indexing that can raise `IndexError`, and the `%` operator that
  can raise `ZeroDivisionError`, are modelled with `Option`: `none` is the
  raised, uncaught exception.
- `print` side effects are dropped, except that the round-robin policy's
  container-overflow diagnostic names the skipped item, so the model records
  the skipped items in a list (`EvenState.skipped`).
-/

namespace BinPacker

/-- Embedding of class `BinContainer` (bin_packer.py lines 59-82): a bin with
its zero-based `index`, fixed `size` (capacity), running sum `count` of placed
item heights, and the ordered list of placed `items`. -/
structure BinContainer where
  index : Nat
  size : Nat
  count : Nat
  items : List Nat
  deriving Repr, DecidableEq

/-- Embedding of `BinContainer.append` (lines 73-75): record the item at the
end of `items` and add its height to the running sum `count`. -/
def BinContainer.append (b : BinContainer) (item : Nat) : BinContainer :=
  { b with items := b.items ++ [item], count := b.count + item }

/-- Embedding of the `while` loop of `BinManager.compute_bin_count`
(lines 101-103).  The Python loop indexes `bin_sizes[bin_count]`; since
`bin_count` counts exactly the capacities consumed so far, that index is the
head of the remaining suffix, which this walk recurses on.  An empty suffix
while more capacity is still needed is the `IndexError` (`none`). -/
def cbc_walk (unit_height_sum : Nat) : Nat → Nat → List Nat → Option Nat
  | container_sum, bin_count, [] =>
    if container_sum < unit_height_sum then none else some bin_count
  | container_sum, bin_count, c :: rest =>
    if container_sum < unit_height_sum then
      cbc_walk unit_height_sum (container_sum + c) (bin_count + 1) rest
    else some bin_count

/-- Embedding of `BinManager.compute_bin_count` (lines 95-105): sum the item
heights, then walk the capacity list accumulating capacities until the running
container sum reaches the total demand. -/
def compute_bin_count (bin_items bin_sizes : List Nat) : Option Nat :=
  cbc_walk bin_items.sum 0 0 bin_sizes

/-- Embedding of the sort in `split_values_by_size` (line 118):
`sorted(values, reverse=large_values_first)`.  On plain integer values the
sorted list is unique, so insertion sort with the corresponding total order
coincides with Python's stable sort. -/
def sorted_list (values : List Nat) (large_values_first : Bool) : List Nat :=
  if large_values_first then List.insertionSort (fun a b => a ≥ b) values
  else List.insertionSort (fun a b => a ≤ b) values

/-- Embedding of the grouping walk of `split_values_by_size` (lines 119-128):
`val` is the value of the current run, `ary` the current run collected so far
(the Python code mutates the list already appended to `sets`); a differing
item closes the current run and opens a new one. -/
def split_runs (val : Nat) (ary : List Nat) : List Nat → List (List Nat)
  | [] => [ary]
  | item :: rest =>
    if val = item then split_runs val (ary ++ [item]) rest
    else ary :: split_runs item [item] rest

/-- Embedding of `BinManager.split_values_by_size` (lines 111-129): empty
input returns no groups; otherwise sort and split into runs of equal values.
The Python loop starts with `val = sorted_list[0]` and its first iteration
puts that first element into the initial group. -/
def split_values_by_size (values : List Nat) (large_values_first : Bool) :
    List (List Nat) :=
  match sorted_list values large_values_first with
  | [] => []
  | val :: rest => split_runs val [val] rest

/-- Embedding of `BinManager.can_add_to_bin` (lines 135-140): true iff the
running sum plus the item height stays within the bin size. -/
def can_add_to_bin (bin_container : BinContainer) (item : Nat) : Bool :=
  bin_container.count + item ≤ bin_container.size

/-- Embedding of the bin-allocation comprehension
`[ BinContainer(i, bin_sizes[i]) for i in range(bin_count) ]` (line 151 and
line 179): each index up to `bin_count` reads `bin_sizes[i]`; an index past
the end of `bin_sizes` is the `IndexError` (`none`). -/
def allocate_bins (bin_sizes : List Nat) : Nat → Option (List BinContainer)
  | 0 => some []
  | n + 1 =>
    match allocate_bins bin_sizes n, bin_sizes[n]? with
    | some bl, some s => some (bl ++ [⟨n, s, 0, []⟩])
    | _, _ => none

/-- Embedding of the placement loop of `order_sequentially` (lines 155-166),
run over the concatenation of the value groups: if the item fits the bin at
the cursor `cidx`, append it there; otherwise advance the cursor and append
without a fit check.  Either indexing can raise (`none`). -/
def seqPlace : List BinContainer → Nat → List Nat → Option (List BinContainer × Nat)
  | bins, cidx, [] => some (bins, cidx)
  | bins, cidx, item :: rest =>
    match bins[cidx]? with
    | none => none
    | some b =>
      if can_add_to_bin b item then
        seqPlace (bins.set cidx (b.append item)) cidx rest
      else
        match bins[cidx + 1]? with
        | none => none
        | some b2 => seqPlace (bins.set (cidx + 1) (b2.append item)) (cidx + 1) rest

/-- Embedding of `BinManager.order_sequentially` (lines 146-168): compute the
bin count, allocate the bins from the first `bin_count` capacities, split the
values into groups, then place every item of every group sequentially. -/
def order_sequentially (values bin_sizes : List Nat) (large_items_at_top : Bool) :
    Option (List BinContainer) :=
  match compute_bin_count values bin_sizes with
  | none => none
  | some bin_count =>
    match allocate_bins bin_sizes bin_count with
    | none => none
    | some bin_list =>
      match seqPlace bin_list 0 (split_values_by_size values large_items_at_top).flatten with
      | none => none
      | some (bl, _) => some bl

/-- State of the round-robin placement loop of `evenly_distribute`: the bin
list, the unconditionally incremented placement counter `nidx` (line 196),
and the list of items skipped by the container-overflow branch
(lines 193-195). -/
structure EvenState where
  bins : List BinContainer
  nidx : Nat
  skipped : List Nat
  deriving Repr, DecidableEq

/-- Embedding of one iteration of the loop body of `evenly_distribute`
(lines 186-196): `cidx = nidx % bin_count` (a `ZeroDivisionError` when
`bin_count` is zero, modelled as `none`); if the item fits bin `cidx` it is
appended there, otherwise it is skipped with a diagnostic; the counter is
incremented in both branches. -/
def evenStep (bin_count : Nat) (st : EvenState) (item : Nat) : Option EvenState :=
  if bin_count = 0 then none
  else
    match st.bins[st.nidx % bin_count]? with
    | none => none
    | some b =>
      if can_add_to_bin b item then
        some ⟨st.bins.set (st.nidx % bin_count) (b.append item), st.nidx + 1, st.skipped⟩
      else
        some ⟨st.bins, st.nidx + 1, st.skipped ++ [item]⟩

/-- Embedding of the placement loop of `evenly_distribute` (lines 185-196),
run over the concatenation of the value groups. -/
def evenPlace (bin_count : Nat) : EvenState → List Nat → Option EvenState
  | st, [] => some st
  | st, item :: rest =>
    match evenStep bin_count st item with
    | none => none
    | some st2 => evenPlace bin_count st2 rest

/-- Embedding of `BinManager.evenly_distribute` (lines 174-198): compute the
bin count, allocate the bins, split the values into groups, then place the
items round-robin.  The returned state carries the final bins and the skipped
items (the Python function returns only `bin_list`; the skip list models the
overflow diagnostics it printed). -/
def evenly_distribute (values bin_sizes : List Nat) (large_items_at_top : Bool) :
    Option EvenState :=
  match compute_bin_count values bin_sizes with
  | none => none
  | some bin_count =>
    match allocate_bins bin_sizes bin_count with
    | none => none
    | some bin_list =>
      evenPlace bin_count ⟨bin_list, 0, []⟩
        (split_values_by_size values large_items_at_top).flatten

/-- When the remaining capacities can still cover the demand, the walk stops
at the least number of further capacities whose sum reaches the target. -/
theorem cbc_walk_reaches (target : Nat) :
    ∀ (rest : List Nat) (cs bc : Nat), target ≤ cs + rest.sum →
      ∃ j, cbc_walk target cs bc rest = some (bc + j) ∧ j ≤ rest.length ∧
        target ≤ cs + (rest.take j).sum ∧
        ∀ i, i < j → cs + (rest.take i).sum < target := by
  intro rest
  induction rest with
  | nil =>
    intro cs bc h
    simp only [List.sum_nil, Nat.add_zero] at h
    exact ⟨0, by simp [cbc_walk, Nat.not_lt.mpr h], by simp, by simpa using h, by omega⟩
  | cons c r ih =>
    intro cs bc h
    by_cases hcs : cs < target
    · obtain ⟨j, hw, hj, hcov, hmin⟩ := ih (cs + c) (bc + 1) (by simp at h ⊢; omega)
      have hbcj : bc + (j + 1) = bc + 1 + j := by omega
      refine ⟨j + 1, ?_, by simpa using Nat.succ_le_succ hj, ?_, ?_⟩
      · rw [hbcj]
        simpa [cbc_walk, hcs] using hw
      · simpa [List.take_succ_cons, Nat.add_assoc] using hcov
      · intro i hi
        cases i with
        | zero => simpa using hcs
        | succ i2 =>
          have := hmin i2 (by omega)
          simpa [List.take_succ_cons, Nat.add_assoc] using this
    · exact ⟨0, by simp [cbc_walk, hcs], by simp, by simpa using Nat.le_of_not_lt hcs,
        by omega⟩

/-- When the remaining capacities cannot cover the demand, the walk runs off
the end of the capacity list and fails. -/
theorem cbc_walk_exhausts (target : Nat) :
    ∀ (rest : List Nat) (cs bc : Nat), cs + rest.sum < target →
      cbc_walk target cs bc rest = none := by
  intro rest
  induction rest with
  | nil =>
    intro cs bc h
    simp only [List.sum_nil, Nat.add_zero] at h
    simp [cbc_walk, h]
  | cons c r ih =>
    intro cs bc h
    simp only [List.sum_cons] at h
    have hcs : cs < target := by omega
    have := ih (cs + c) (bc + 1) (by omega)
    simpa [cbc_walk, hcs] using this

/-- A successful walk never returns less than the starting counter, and
returns the starting counter itself only when no capacity was needed. -/
theorem cbc_walk_some_ge (target : Nat) :
    ∀ (rest : List Nat) (cs bc n : Nat), cbc_walk target cs bc rest = some n →
      bc ≤ n ∧ (n = bc → target ≤ cs) := by
  intro rest
  induction rest with
  | nil =>
    intro cs bc n h
    by_cases hcs : cs < target
    · simp [cbc_walk, hcs] at h
    · simp [cbc_walk, hcs] at h
      omega
  | cons c r ih =>
    intro cs bc n h
    by_cases hcs : cs < target
    · simp only [cbc_walk, if_pos hcs] at h
      have := ih (cs + c) (bc + 1) n h
      constructor
      · omega
      · intro hn; omega
    · simp [cbc_walk, hcs] at h
      omega

/-- Allocated bins are numbered from zero, carry the corresponding prefix of
the capacity list, and start empty. -/
theorem allocate_bins_fresh (bin_sizes : List Nat) :
    ∀ n bl, allocate_bins bin_sizes n = some bl →
      bl.length = n ∧ ∀ b ∈ bl, b.count = 0 ∧ b.items = [] := by
  intro n
  induction n with
  | zero =>
    intro bl h
    simp only [allocate_bins, Option.some.injEq] at h
    subst h
    simp
  | succ m ih =>
    intro bl h
    cases hrec : allocate_bins bin_sizes m with
    | none => simp [allocate_bins, hrec] at h
    | some bl2 =>
      cases hget : bin_sizes[m]? with
      | none => simp [allocate_bins, hrec, hget] at h
      | some s =>
        simp only [allocate_bins, hrec, hget, Option.some.injEq] at h
        obtain ⟨hlen, hmem⟩ := ih bl2 hrec
        subst h
        constructor
        · simp [hlen]
        · intro b hb
          rcases List.mem_append.1 hb with hb2 | hb2
          · exact hmem b hb2
          · simp at hb2
            simp [hb2]

/-- Allocation succeeds whenever the requested count does not exceed the
length of the capacity list. -/
theorem allocate_bins_of_le (bin_sizes : List Nat) :
    ∀ n, n ≤ bin_sizes.length → (allocate_bins bin_sizes n).isSome = true := by
  intro n
  induction n with
  | zero => intro _; simp [allocate_bins]
  | succ m ih =>
    intro h
    have hm := ih (by omega)
    cases hrec : allocate_bins bin_sizes m with
    | none => simp [hrec] at hm
    | some bl =>
      have hm2 : m < bin_sizes.length := by omega
      simp [allocate_bins, hrec, List.getElem?_eq_getElem hm2]

/-- C1: for every item collection and every capacity list whose total sum is
at least the total item size, `compute_bin_count` returns `some n` exactly
when `n` is the smallest prefix length of the capacity list whose cumulative
sum reaches the total item size; for an empty item collection it returns 0
(the accumulation loop is never entered since the demand is already met). -/
theorem compute_bin_count_minimal_cover (values bin_sizes : List Nat) (n : Nat)
    (hcap : values.sum ≤ bin_sizes.sum) :
    (compute_bin_count values bin_sizes = some n ↔
      values.sum ≤ (bin_sizes.take n).sum ∧
        ∀ m, m < n → (bin_sizes.take m).sum < values.sum) ∧
    (values = [] → compute_bin_count values bin_sizes = some 0) := by
  obtain ⟨j, hw, hj, hcov, hmin⟩ :=
    cbc_walk_reaches values.sum bin_sizes 0 0 (by simpa using hcap)
  simp only [Nat.zero_add] at hw hcov hmin
  have hwc : compute_bin_count values bin_sizes = some j := hw
  constructor
  · constructor
    · intro h
      rw [hwc, Option.some.injEq] at h
      subst h
      exact ⟨hcov, fun m hm => by simpa using hmin m hm⟩
    · rintro ⟨h1, h2⟩
      have hnj : n = j := by
        rcases Nat.lt_trichotomy n j with hlt | heq | hgt
        · have := hmin n hlt
          omega
        · exact heq
        · have := h2 j hgt
          omega
      rw [hnj]
      exact hwc
  · intro hv
    subst hv
    have hj0 : j = 0 := by
      by_contra h0
      have := hmin 0 (Nat.pos_of_ne_zero h0)
      simp at this
    rw [hj0] at hwc
    exact hwc

/-- Witness for C1, scenario-1-like data: three items summing to 4 against
capacities 2 and 30 need the first two capacities. -/
theorem compute_bin_count_minimal_cover_witness :
    compute_bin_count [1, 2, 1] [2, 30] = some 2 :=
  (compute_bin_count_minimal_cover [1, 2, 1] [2, 30] 2 (by decide)).1.mpr (by decide)

/-- C6: when a non-empty item collection's total size exceeds the sum of all
supplied capacities, `compute_bin_count` fails with the Index-Out-Of-Range
condition (modelled as `none`), and both packing policies, which call it
first, fail the same way. -/
theorem insufficient_capacity_fails (values bin_sizes : List Nat) (large : Bool)
    (hne : values ≠ []) (hcap : bin_sizes.sum < values.sum) :
    compute_bin_count values bin_sizes = none ∧
    order_sequentially values bin_sizes large = none ∧
    evenly_distribute values bin_sizes large = none := by
  have h : compute_bin_count values bin_sizes = none :=
    cbc_walk_exhausts values.sum bin_sizes 0 0 (by simpa using hcap)
  refine ⟨h, ?_, ?_⟩
  · simp [order_sequentially, h]
  · simp [evenly_distribute, h]

/-- Witness for C6: one item of size 5 cannot be covered by capacities 1, 2. -/
theorem insufficient_capacity_fails_witness :
    compute_bin_count [5] [1, 2] = none ∧
    order_sequentially [5] [1, 2] true = none ∧
    evenly_distribute [5] [1, 2] true = none :=
  insufficient_capacity_fails [5] [1, 2] true (by decide) (by decide)

/-- C9: whenever `compute_bin_count` returns normally, the returned count is
at most the length of the capacity list, so the bin-instantiation step of
both policies, which reads the first `bin_count` capacities, succeeds. -/
theorem compute_bin_count_le_length (values bin_sizes : List Nat) (n : Nat)
    (h : compute_bin_count values bin_sizes = some n) :
    n ≤ bin_sizes.length ∧ (allocate_bins bin_sizes n).isSome = true := by
  rcases le_or_lt values.sum bin_sizes.sum with hle | hlt
  · obtain ⟨j, hw, hj, -, -⟩ :=
      cbc_walk_reaches values.sum bin_sizes 0 0 (by simpa using hle)
    have hwc : compute_bin_count values bin_sizes = some (0 + j) := hw
    rw [hwc, Option.some.injEq] at h
    have hn : n ≤ bin_sizes.length := by omega
    exact ⟨hn, allocate_bins_of_le bin_sizes n hn⟩
  · have : compute_bin_count values bin_sizes = none :=
      cbc_walk_exhausts values.sum bin_sizes 0 0 (by simpa using hlt)
    rw [this] at h
    exact absurd h (by simp)

/-- Witness for C9: a single item of size 1 against capacity list of length 1. -/
theorem compute_bin_count_le_length_witness :
    1 ≤ ([2] : List Nat).length ∧ (allocate_bins [2] 1).isSome = true :=
  compute_bin_count_le_length [1] [2] 1 (by decide)

/-- Concatenating the runs produced by the grouping walk restores the run
collected so far followed by the rest of the sorted sequence. -/
theorem split_runs_flatten :
    ∀ (rest : List Nat) (val : Nat) (ary : List Nat),
      (split_runs val ary rest).flatten = ary ++ rest := by
  intro rest
  induction rest with
  | nil => intro val ary; simp [split_runs]
  | cons item rest2 ih =>
    intro val ary
    by_cases hv : val = item
    · simp only [split_runs, if_pos hv, ih]
      simp
    · simp only [split_runs, if_neg hv]
      simp [ih]

/-- Every run produced by the grouping walk is non-empty and holds equal
values only, provided the run collected so far does. -/
theorem split_runs_groups :
    ∀ (rest : List Nat) (val : Nat) (ary : List Nat),
      ary ≠ [] → (∀ a ∈ ary, a = val) →
      ∀ g ∈ split_runs val ary rest, g ≠ [] ∧ ∀ a ∈ g, ∀ b ∈ g, a = b := by
  intro rest
  induction rest with
  | nil =>
    intro val ary h1 h2 g hg
    simp only [split_runs, List.mem_singleton] at hg
    subst hg
    exact ⟨h1, fun a ha b hb => (h2 a ha).trans (h2 b hb).symm⟩
  | cons item rest2 ih =>
    intro val ary h1 h2 g hg
    by_cases hv : val = item
    · rw [split_runs, if_pos hv] at hg
      refine ih val (ary ++ [item]) (by simp) ?_ g hg
      intro a ha
      rcases List.mem_append.1 ha with h | h
      · exact h2 a h
      · simp only [List.mem_singleton] at h
        exact h.trans hv.symm
    · rw [split_runs, if_neg hv] at hg
      rcases List.mem_cons.1 hg with h | h
      · subst h
        exact ⟨h1, fun a ha b hb => (h2 a ha).trans (h2 b hb).symm⟩
      · exact ih item [item] (by simp) (by simp) g h

/-- Runs produced by the grouping walk on a sorted remainder are strictly
ordered: any element of an earlier run is related to, and different from,
any element of a later run. -/
theorem split_runs_pairwise (r : Nat → Nat → Prop)
    (hanti : ∀ a b, r a b → r b a → a = b) :
    ∀ (rest : List Nat) (val : Nat) (ary : List Nat),
      (∀ a ∈ ary, a = val) →
      (∀ b ∈ rest, r val b) → List.Pairwise r rest →
      List.Pairwise (fun g1 g2 => ∀ a ∈ g1, ∀ b ∈ g2, r a b ∧ a ≠ b)
        (split_runs val ary rest) := by
  intro rest
  induction rest with
  | nil =>
    intro val ary h1 h2 h3
    simp [split_runs]
  | cons item rest2 ih =>
    intro val ary h1 h2 h3
    rw [List.pairwise_cons] at h3
    by_cases hv : val = item
    · rw [split_runs, if_pos hv]
      refine ih val (ary ++ [item]) ?_ ?_ h3.2
      · intro a ha
        rcases List.mem_append.1 ha with h | h
        · exact h1 a h
        · simp only [List.mem_singleton] at h
          exact h.trans hv.symm
      · intro b hb
        exact h2 b (List.mem_cons_of_mem _ hb)
    · rw [split_runs, if_neg hv]
      rw [List.pairwise_cons]
      refine ⟨?_, ih item [item] (by simp) h3.1 h3.2⟩
      intro g hg a haa b hbb
      have hbmem : b ∈ (item :: rest2 : List Nat) := by
        have hbf : b ∈ (split_runs item [item] rest2).flatten :=
          List.mem_flatten.2 ⟨g, hg, hbb⟩
        rw [split_runs_flatten] at hbf
        simpa using hbf
      have hav : a = val := h1 a haa
      have hrb : r val b := h2 b hbmem
      have hne : val ≠ b := by
        intro he
        rcases List.mem_cons.1 hbmem with h | h
        · exact hv (he.trans h)
        · have h4 : r item b := h3.1 b h
          have h5 : r val item := h2 item (List.mem_cons_self _ _)
          rw [he] at h5
          exact hv (he.trans (hanti item b h4 h5).symm)
      subst hav
      exact ⟨hrb, hne⟩

/-- Sorting the values, in either direction, permutes them. -/
theorem sorted_list_perm (values : List Nat) (large : Bool) :
    (sorted_list values large).Perm values := by
  cases large
  · simpa [sorted_list] using List.perm_insertionSort (fun a b => a ≤ b) values
  · simpa [sorted_list] using List.perm_insertionSort (fun a b => a ≥ b) values

/-- Concatenating the groups of `split_values_by_size` restores the sorted
value list. -/
theorem split_flatten_eq_sorted (values : List Nat) (large : Bool) :
    (split_values_by_size values large).flatten = sorted_list values large := by
  cases hs : sorted_list values large with
  | nil => simp [split_values_by_size, hs]
  | cons val rest => simp [split_values_by_size, hs, split_runs_flatten]

/-- The concatenated groups sum to the input sum. -/
theorem split_flatten_sum (values : List Nat) (large : Bool) :
    ((split_values_by_size values large).flatten).sum = values.sum := by
  rw [split_flatten_eq_sorted]
  exact (sorted_list_perm values large).sum_eq

/-- C7: `split_values_by_size` returns groups that are each non-empty and
hold equal values only, with the shared group values strictly decreasing
across the sequence when the direction flag is set and strictly increasing
otherwise; an empty input yields an empty sequence of groups. -/
theorem split_values_by_size_grouped (values : List Nat) (large : Bool) :
    (values = [] → split_values_by_size values large = []) ∧
    (∀ g ∈ split_values_by_size values large, g ≠ [] ∧ ∀ a ∈ g, ∀ b ∈ g, a = b) ∧
    List.Pairwise
      (fun g1 g2 => ∀ a ∈ g1, ∀ b ∈ g2, if large = true then b < a else a < b)
      (split_values_by_size values large) := by
  refine ⟨?_, ?_, ?_⟩
  · intro hv
    subst hv
    cases large <;> simp [split_values_by_size, sorted_list]
  · cases hs : sorted_list values large with
    | nil => simp [split_values_by_size, hs]
    | cons val rest =>
      simp only [split_values_by_size, hs]
      exact split_runs_groups rest val [val] (by simp) (by simp)
  · have key : ∀ (r : Nat → Nat → Prop), (∀ a b, r a b → r b a → a = b) →
        List.Sorted r (sorted_list values large) →
        List.Pairwise (fun g1 g2 => ∀ a ∈ g1, ∀ b ∈ g2, r a b ∧ a ≠ b)
          (split_values_by_size values large) := by
      intro r hanti hsort
      cases hs : sorted_list values large with
      | nil => simp [split_values_by_size, hs]
      | cons val rest =>
        rw [hs, List.sorted_cons] at hsort
        simp only [split_values_by_size, hs]
        exact split_runs_pairwise r hanti rest val [val] (by simp) hsort.1 hsort.2
    cases large
    · have := key (fun a b => a ≤ b) (fun a b h1 h2 => by omega)
        (by simpa [sorted_list] using
          List.sorted_insertionSort (fun a b => a ≤ b) values)
      refine this.imp ?_
      intro g1 g2 h a ha b hb
      obtain ⟨h3, h4⟩ := h a ha b hb
      have h5 : a ≤ b := h3
      have h6 : a < b := by omega
      simpa using h6
    · have := key (fun a b => a ≥ b) (fun a b h1 h2 => by omega)
        (by simpa [sorted_list] using
          List.sorted_insertionSort (fun a b => a ≥ b) values)
      refine this.imp ?_
      intro g1 g2 h a ha b hb
      obtain ⟨h3, h4⟩ := h a ha b hb
      have h5 : b ≤ a := h3
      have h6 : b < a := by omega
      simpa using h6

/-- Witness for C7: grouping `[2, 1, 2]` descending gives the group of twos
then the group of ones, and the first group is non-empty. -/
theorem split_values_by_size_grouped_witness :
    split_values_by_size [2, 1, 2] true = [[2, 2], [1]] ∧ ([2, 2] : List Nat) ≠ [] :=
  ⟨by decide, ((split_values_by_size_grouped [2, 1, 2] true).2.1 [2, 2] (by decide)).1⟩

/-- C8: concatenating the groups of `split_values_by_size`, in order, yields
exactly the input collection sorted in the requested direction: the
concatenation is the sorted list, the sorted list is a permutation of the
input (no value added or lost), and it is ordered per the direction flag. -/
theorem split_values_by_size_concat_sorted (values : List Nat) (large : Bool) :
    (split_values_by_size values large).flatten = sorted_list values large ∧
    (sorted_list values large).Perm values ∧
    List.Sorted (fun a b => if large = true then b ≤ a else a ≤ b)
      (sorted_list values large) := by
  refine ⟨split_flatten_eq_sorted values large, sorted_list_perm values large, ?_⟩
  cases large
  · have := List.sorted_insertionSort (fun a b => a ≤ b) values
    simp only [sorted_list, Bool.false_eq_true, if_false]
    simpa using this
  · have := List.sorted_insertionSort (fun a b => a ≥ b) values
    simp only [sorted_list, if_true]
    simpa [ge_iff_le] using this

/-- Updating one bin of a bin list changes the sum of a numeric projection by
exactly the difference at that bin. -/
theorem sum_map_set (f : BinContainer → Nat) :
    ∀ (l : List BinContainer) (i : Nat) (b c : BinContainer), l[i]? = some b →
      ((l.set i c).map f).sum + f b = (l.map f).sum + f c := by
  intro l
  induction l with
  | nil => intro i b c h; simp at h
  | cons hd tl ih =>
    intro i b c h
    cases i with
    | zero =>
      simp only [List.getElem?_cons_zero, Option.some.injEq] at h
      subst h
      simp only [List.set_cons_zero, List.map_cons, List.sum_cons]
      omega
    | succ j =>
      simp only [List.getElem?_cons_succ] at h
      have h2 := ih j b c h
      simp only [List.set_cons_succ, List.map_cons, List.sum_cons]
      omega

/-- Appending one item to one bin of a bin list adds that item, up to
permutation, to the concatenation of all placed items. -/
theorem flatten_map_set_append (x : Nat) :
    ∀ (l : List BinContainer) (i : Nat) (b : BinContainer), l[i]? = some b →
      (((l.set i (b.append x)).map (fun b2 => b2.items)).flatten).Perm
        (((l.map (fun b2 => b2.items)).flatten) ++ [x]) := by
  intro l
  induction l with
  | nil => intro i b h; simp at h
  | cons hd tl ih =>
    intro i b h
    cases i with
    | zero =>
      simp only [List.getElem?_cons_zero, Option.some.injEq] at h
      subst h
      simp only [List.set_cons_zero, List.map_cons, List.flatten_cons,
        BinContainer.append, List.append_assoc]
      exact List.Perm.append_left _
        (List.perm_append_comm :
          (([x] : List Nat) ++ (tl.map (fun b2 => b2.items)).flatten).Perm _)
    | succ j =>
      simp only [List.getElem?_cons_succ] at h
      have h2 := ih j b h
      simp only [List.set_cons_succ, List.map_cons, List.flatten_cons,
        List.append_assoc]
      exact List.Perm.append_left _ h2

/-- An index lookup that succeeds returns a member of the list. -/
theorem mem_of_lookup {l : List BinContainer} {i : Nat} {b : BinContainer}
    (h : l[i]? = some b) : b ∈ l := by
  obtain ⟨h2, h3⟩ := List.getElem?_eq_some.1 h
  exact h3 ▸ List.getElem_mem h2

/-- The sequential placement loop adds exactly the placed items to the total
fill of the bins: the sum of the bin counts grows by the sum of the items. -/
theorem seqPlace_sum :
    ∀ (items : List Nat) (bins : List BinContainer) (cidx : Nat)
      (bins2 : List BinContainer) (cidx2 : Nat),
      seqPlace bins cidx items = some (bins2, cidx2) →
      (bins2.map (fun b => b.count)).sum = (bins.map (fun b => b.count)).sum + items.sum := by
  intro items
  induction items with
  | nil =>
    intro bins cidx bins2 cidx2 h
    simp only [seqPlace, Option.some.injEq, Prod.mk.injEq] at h
    simp [← h.1]
  | cons item rest ih =>
    intro bins cidx bins2 cidx2 h
    cases hb : bins[cidx]? with
    | none => simp [seqPlace, hb] at h
    | some b =>
      simp only [seqPlace, hb] at h
      by_cases hfit : can_add_to_bin b item = true
      · rw [if_pos hfit] at h
        have h2 := ih _ _ _ _ h
        have h3 := sum_map_set (fun b => b.count) bins cidx b (b.append item) hb
        simp only [BinContainer.append, List.sum_cons] at h2 h3 ⊢
        omega
      · rw [if_neg hfit] at h
        cases hb2 : bins[cidx + 1]? with
        | none => rw [hb2] at h; simp at h
        | some b2 =>
          rw [hb2] at h
          simp only at h
          have h2 := ih _ _ _ _ h
          have h3 := sum_map_set (fun b => b.count) bins (cidx + 1) b2 (b2.append item) hb2
          simp only [BinContainer.append, List.sum_cons] at h2 h3 ⊢
          omega

/-- The sequential placement loop preserves the data-model invariant that a
bin's running count equals the sum of its placed items. -/
theorem seqPlace_items_inv :
    ∀ (items : List Nat) (bins : List BinContainer) (cidx : Nat)
      (bins2 : List BinContainer) (cidx2 : Nat),
      seqPlace bins cidx items = some (bins2, cidx2) →
      (∀ b ∈ bins, b.count = b.items.sum) →
      ∀ b ∈ bins2, b.count = b.items.sum := by
  intro items
  induction items with
  | nil =>
    intro bins cidx bins2 cidx2 h hinv
    simp only [seqPlace, Option.some.injEq, Prod.mk.injEq] at h
    exact h.1 ▸ hinv
  | cons item rest ih =>
    intro bins cidx bins2 cidx2 h hinv
    have hstep : ∀ (i : Nat) (b : BinContainer), bins[i]? = some b →
        ∀ b2 ∈ bins.set i (b.append item), b2.count = b2.items.sum := by
      intro i b hb b2 hb2
      rcases List.mem_or_eq_of_mem_set hb2 with h2 | h2
      · exact hinv b2 h2
      · subst h2
        simp only [BinContainer.append, List.sum_append, List.sum_cons, List.sum_nil]
        rw [hinv b (mem_of_lookup hb)]
        omega
    cases hb : bins[cidx]? with
    | none => simp [seqPlace, hb] at h
    | some b =>
      simp only [seqPlace, hb] at h
      by_cases hfit : can_add_to_bin b item = true
      · rw [if_pos hfit] at h
        exact ih _ _ _ _ h (hstep cidx b hb)
      · rw [if_neg hfit] at h
        cases hb2 : bins[cidx + 1]? with
        | none => rw [hb2] at h; simp at h
        | some b2 =>
          rw [hb2] at h
          simp only at h
          exact ih _ _ _ _ h (hstep (cidx + 1) b2 hb2)

/-- C2 counterexample: in `order_sequentially` with items of size 3, 3 and
capacities 3, 1, 100, the second item does not fit the first bin, so the
cursor advances and the item is appended to the second bin without a fit
check; that bin then holds 3 units against a capacity of 1, so a successful
placement leaves a bin with its filled sum exceeding its capacity. -/
theorem order_sequentially_overflows_bin :
    order_sequentially [3, 3] [3, 1, 100] false =
      some [⟨0, 3, 3, [3]⟩, ⟨1, 1, 3, [3]⟩, ⟨2, 100, 0, []⟩] ∧
    ¬ ((⟨1, 1, 3, [3]⟩ : BinContainer).count ≤ (⟨1, 1, 3, [3]⟩ : BinContainer).size) := by
  decide

/-- C3: whenever `order_sequentially` returns normally, the sum of the item
sizes placed across all returned bins equals the sum of the input item
sizes — the sequential policy never drops an item. -/
theorem order_sequentially_conserves_total (values bin_sizes : List Nat)
    (large : Bool) (bl : List BinContainer)
    (h : order_sequentially values bin_sizes large = some bl) :
    (bl.map (fun b => b.items.sum)).sum = values.sum := by
  rw [order_sequentially] at h
  cases hc : compute_bin_count values bin_sizes with
  | none => rw [hc] at h; simp at h
  | some bc =>
    rw [hc] at h
    simp only at h
    cases ha : allocate_bins bin_sizes bc with
    | none => rw [ha] at h; simp at h
    | some bl0 =>
      rw [ha] at h
      simp only at h
      cases hs : seqPlace bl0 0 (split_values_by_size values large).flatten with
      | none => rw [hs] at h; simp at h
      | some p =>
        obtain ⟨bins2, cidx2⟩ := p
        rw [hs] at h
        simp only [Option.some.injEq] at h
        subst h
        obtain ⟨hlen, hfresh⟩ := allocate_bins_fresh bin_sizes bc bl0 ha
        have hinv0 : ∀ b ∈ bl0, b.count = b.items.sum := by
          intro b hb
          obtain ⟨h1, h2⟩ := hfresh b hb
          simp [h1, h2]
        have hinv := seqPlace_items_inv _ _ _ _ _ hs hinv0
        have hsum := seqPlace_sum _ _ _ _ _ hs
        have hzero : ((bl0.map fun b => b.count).sum) = 0 := by
          refine List.sum_eq_zero ?_
          intro x hx
          obtain ⟨b, hb, hbx⟩ := List.mem_map.1 hx
          rw [← hbx]
          exact (hfresh b hb).1
        have hcongr : bins2.map (fun b => b.items.sum) = bins2.map (fun b => b.count) :=
          List.map_congr_left (fun b hb => (hinv b hb).symm)
        rw [hcongr, hsum, hzero, split_flatten_sum]
        omega

/-- Witness for C3, scenario 1: items 1, 2, 1 into one bin of capacity 30. -/
theorem order_sequentially_conserves_total_witness :
    (([⟨0, 30, 4, [2, 1, 1]⟩] : List BinContainer).map (fun b => b.items.sum)).sum =
      ([1, 2, 1] : List Nat).sum :=
  order_sequentially_conserves_total [1, 2, 1] [30] true [⟨0, 30, 4, [2, 1, 1]⟩]
    (by decide)

/-- A successful round-robin step targets bin `nidx % bin_count`, requires a
non-zero bin count, and either appends the item to the target bin or records
it as skipped; the counter advances in both branches. -/
theorem evenStep_cases (bin_count : Nat) (st st2 : EvenState) (item : Nat)
    (h : evenStep bin_count st item = some st2) :
    bin_count ≠ 0 ∧ ∃ b, st.bins[st.nidx % bin_count]? = some b ∧
      ((can_add_to_bin b item = true ∧
        st2 = ⟨st.bins.set (st.nidx % bin_count) (b.append item),
          st.nidx + 1, st.skipped⟩) ∨
       (¬ can_add_to_bin b item = true ∧
        st2 = ⟨st.bins, st.nidx + 1, st.skipped ++ [item]⟩)) := by
  by_cases hbc : bin_count = 0
  · simp [evenStep, hbc] at h
  · refine ⟨hbc, ?_⟩
    rw [evenStep, if_neg hbc] at h
    cases hb : st.bins[st.nidx % bin_count]? with
    | none => rw [hb] at h; simp at h
    | some b =>
      rw [hb] at h
      simp only at h
      refine ⟨b, rfl, ?_⟩
      by_cases hfit : can_add_to_bin b item = true
      · rw [if_pos hfit] at h
        simp only [Option.some.injEq] at h
        exact Or.inl ⟨hfit, h.symm⟩
      · rw [if_neg hfit] at h
        simp only [Option.some.injEq] at h
        exact Or.inr ⟨hfit, h.symm⟩

/-- The round-robin step succeeds whenever the bin count is non-zero and the
bin list has exactly that many bins. -/
theorem evenStep_isSome (bin_count : Nat) (st : EvenState) (item : Nat)
    (hbc : bin_count ≠ 0) (hlen : st.bins.length = bin_count) :
    ∃ st2, evenStep bin_count st item = some st2 := by
  rw [evenStep, if_neg hbc]
  have hlt : st.nidx % bin_count < st.bins.length := by
    rw [hlen]
    exact Nat.mod_lt _ (Nat.pos_of_ne_zero hbc)
  rw [List.getElem?_eq_getElem hlt]
  simp only
  by_cases hfit : can_add_to_bin (st.bins[st.nidx % bin_count]) item = true
  · exact ⟨_, by rw [if_pos hfit]⟩
  · exact ⟨_, by rw [if_neg hfit]⟩

/-- Moving one element from the middle of a concatenation to the back of the
first block is a permutation. -/
theorem perm_shuffle (F S R : List Nat) (x : Nat) :
    ((F ++ [x]) ++ S ++ R).Perm (F ++ S ++ (x :: R)) := by
  have h1 : ((F ++ [x]) ++ S ++ R) = F ++ (x :: (S ++ R)) := by simp
  have h2 : (F ++ S ++ (x :: R)) = F ++ (S ++ (x :: R)) := by simp
  rw [h1, h2]
  exact List.Perm.append_left F List.perm_middle.symm

/-- Joint invariants of the round-robin placement loop: the counter advances
by one per item whether the item is placed or skipped; the number of bins is
unchanged; the total placed plus skipped size grows by the items processed;
placed items plus skipped items are, as a multiset, the previous state plus
the items processed; bins within capacity stay within capacity; a bin's count
stays the sum of its items. -/
theorem evenPlace_props :
    ∀ (items : List Nat) (bin_count : Nat) (st st2 : EvenState),
      evenPlace bin_count st items = some st2 →
      st2.nidx = st.nidx + items.length ∧
      st2.bins.length = st.bins.length ∧
      (st2.bins.map (fun b => b.count)).sum + st2.skipped.sum =
        (st.bins.map (fun b => b.count)).sum + st.skipped.sum + items.sum ∧
      ((st2.bins.map (fun b => b.items)).flatten ++ st2.skipped).Perm
        ((st.bins.map (fun b => b.items)).flatten ++ st.skipped ++ items) ∧
      ((∀ b ∈ st.bins, b.count ≤ b.size) → ∀ b ∈ st2.bins, b.count ≤ b.size) ∧
      ((∀ b ∈ st.bins, b.count = b.items.sum) →
        ∀ b ∈ st2.bins, b.count = b.items.sum) := by
  intro items
  induction items with
  | nil =>
    intro bc st st2 h
    simp only [evenPlace, Option.some.injEq] at h
    subst h
    exact ⟨by simp, rfl, by simp, by simp, fun h => h, fun h => h⟩
  | cons item rest ih =>
    intro bc st st2 h
    cases hstep : evenStep bc st item with
    | none =>
      simp only [evenPlace, hstep] at h
      exact Option.noConfusion h
    | some mid =>
      simp only [evenPlace, hstep] at h
      obtain ⟨hnidx, hlen, hsum, hperm, hle, hitems⟩ := ih bc mid st2 h
      obtain ⟨hbc, b, hb, hcases⟩ := evenStep_cases bc st mid item hstep
      have hbmem : b ∈ st.bins := mem_of_lookup hb
      rcases hcases with ⟨hfit, hmid⟩ | ⟨hfit, hmid⟩
      · subst hmid
        simp only at hnidx hlen hsum hperm hle hitems
        have hsetsum := sum_map_set (fun b2 => b2.count) st.bins
          (st.nidx % bc) b (b.append item) hb
        have hsetperm := flatten_map_set_append item st.bins (st.nidx % bc) b hb
        refine ⟨by simp only [List.length_cons]; omega,
          by rw [hlen, List.length_set], ?_, ?_, ?_, ?_⟩
        · simp only [] at hsetsum
          have happ : (b.append item).count = b.count + item := rfl
          simp only [List.sum_cons]
          omega
        · refine hperm.trans ?_
          refine ((hsetperm.append_right st.skipped).append_right rest).trans ?_
          exact perm_shuffle _ _ _ _
        · intro hstart
          refine hle ?_
          intro b2 hb2
          rcases List.mem_or_eq_of_mem_set hb2 with h2 | h2
          · exact hstart b2 h2
          · subst h2
            simp only [BinContainer.append]
            have hcan : b.count + item ≤ b.size := by
              simpa [can_add_to_bin] using hfit
            exact hcan
        · intro hstart
          refine hitems ?_
          intro b2 hb2
          rcases List.mem_or_eq_of_mem_set hb2 with h2 | h2
          · exact hstart b2 h2
          · subst h2
            simp only [BinContainer.append, List.sum_append, List.sum_cons,
              List.sum_nil]
            rw [hstart b hbmem]
            omega
      · subst hmid
        simp only at hnidx hlen hsum hperm hle hitems
        refine ⟨by simp only [List.length_cons]; omega, hlen, ?_, ?_,
          fun hstart => hle hstart, fun hstart => hitems hstart⟩
        · simp only [List.sum_append, List.sum_cons, List.sum_nil] at hsum ⊢
          omega
        · refine hperm.trans ?_
          have heq : (st.bins.map (fun b2 => b2.items)).flatten ++
              (st.skipped ++ [item]) ++ rest =
              (st.bins.map (fun b2 => b2.items)).flatten ++ st.skipped ++
                (item :: rest) := by
            simp
          rw [heq]

/-- The round-robin placement loop runs to completion whenever the bin count
is non-zero and matches the number of bins. -/
theorem evenPlace_total :
    ∀ (items : List Nat) (bin_count : Nat) (st : EvenState),
      bin_count ≠ 0 → st.bins.length = bin_count →
      ∃ st2, evenPlace bin_count st items = some st2 := by
  intro items
  induction items with
  | nil => intro bc st hbc hlen; exact ⟨st, rfl⟩
  | cons item rest ih =>
    intro bc st hbc hlen
    obtain ⟨mid, hmid⟩ := evenStep_isSome bc st item hbc hlen
    have hlen2 : mid.bins.length = bc := by
      obtain ⟨-, b, hb, hcases⟩ := evenStep_cases bc st mid item hmid
      rcases hcases with ⟨-, h2⟩ | ⟨-, h2⟩ <;> subst h2 <;>
        simp [List.length_set, hlen]
    obtain ⟨st2, h2⟩ := ih bc mid hbc hlen2
    refine ⟨st2, ?_⟩
    simp only [evenPlace, hmid]
    exact h2

/-- The round-robin placement loop over a concatenation is the loop over the
first part followed by the loop over the second part. -/
theorem evenPlace_append (bin_count : Nat) :
    ∀ (xs ys : List Nat) (st : EvenState),
      evenPlace bin_count st (xs ++ ys) =
        match evenPlace bin_count st xs with
        | none => none
        | some mid => evenPlace bin_count mid ys := by
  intro xs
  induction xs with
  | nil => intro ys st; simp [evenPlace]
  | cons x xs2 ih =>
    intro ys st
    simp only [List.cons_append, evenPlace]
    cases hstep : evenStep bin_count st x with
    | none => simp
    | some mid =>
      simp only
      exact ih ys mid

/-- The round-robin placement loop on a single item is exactly one step. -/
theorem evenPlace_singleton (bin_count : Nat) (st : EvenState) (x : Nat) :
    evenPlace bin_count st [x] = evenStep bin_count st x := by
  cases h : evenStep bin_count st x <;> simp [evenPlace, h]

/-- A normal return of `compute_bin_count` is bounded by the length of the
capacity list. -/
theorem compute_bin_count_bound (values bin_sizes : List Nat) (n : Nat)
    (h : compute_bin_count values bin_sizes = some n) : n ≤ bin_sizes.length := by
  rcases le_or_lt values.sum bin_sizes.sum with hle | hlt
  · obtain ⟨j, hw, hj, -, -⟩ :=
      cbc_walk_reaches values.sum bin_sizes 0 0 (by simpa using hle)
    have hwc : compute_bin_count values bin_sizes = some (0 + j) := hw
    rw [hwc, Option.some.injEq] at h
    omega
  · have : compute_bin_count values bin_sizes = none :=
      cbc_walk_exhausts values.sum bin_sizes 0 0 (by simpa using hlt)
    rw [this] at h
    exact absurd h (by simp)

/-- A zero bin count means the total demand was already zero. -/
theorem compute_bin_count_zero (values bin_sizes : List Nat)
    (h : compute_bin_count values bin_sizes = some 0) : values.sum = 0 := by
  have h2 := cbc_walk_some_ge values.sum bin_sizes 0 0 0 h
  omega

/-- A collection of positive values with zero sum is empty. -/
theorem eq_nil_of_sum_zero (values : List Nat) (hpos : ∀ v ∈ values, 0 < v)
    (h : values.sum = 0) : values = [] := by
  cases values with
  | nil => rfl
  | cons v r =>
    have hv := hpos v (List.mem_cons_self _ _)
    simp only [List.sum_cons] at h
    omega

/-- Splitting an empty collection yields no groups, in either direction. -/
theorem split_values_by_size_nil (large : Bool) :
    split_values_by_size [] large = [] := by
  cases large <;> simp [split_values_by_size, sorted_list]

/-- Freshly allocated bins have no placed items at all. -/
theorem flatten_items_nil (bl : List BinContainer)
    (h : ∀ b ∈ bl, b.items = []) :
    ((bl.map (fun b => b.items)).flatten) = [] := by
  rw [List.flatten_eq_nil_iff]
  intro l hl
  obtain ⟨b, hb, hbl⟩ := List.mem_map.1 hl
  rw [← hbl]
  exact h b hb

/-- C2 (amended): after any successful placement by `evenly_distribute` —
that is, at every intermediate state of the round-robin placement loop over
the grouped items — every bin's filled sum is at most its capacity.  (For
`order_sequentially` the claim fails: the forced append after a cursor
advance can overfill a bin, see `order_sequentially_overflows_bin`.) -/
theorem evenly_distribute_fill_invariant (values bin_sizes : List Nat)
    (large : Bool) (bin_count k : Nat) (bin_list : List BinContainer)
    (st : EvenState)
    (hbc : compute_bin_count values bin_sizes = some bin_count)
    (hbl : allocate_bins bin_sizes bin_count = some bin_list)
    (h : evenPlace bin_count ⟨bin_list, 0, []⟩
        (((split_values_by_size values large).flatten).take k) = some st) :
    ∀ b ∈ st.bins, b.count ≤ b.size := by
  obtain ⟨-, -, -, -, hle, -⟩ := evenPlace_props _ _ _ _ h
  refine hle ?_
  intro b hb
  obtain ⟨h1, -⟩ := (allocate_bins_fresh bin_sizes bin_count bin_list hbl).2 b hb
  simp [h1]

/-- Witness for the amended C2: after placing items 1 and 2 round-robin into
two bins of capacity 2, the first bin is within capacity. -/
theorem evenly_distribute_fill_invariant_witness :
    (⟨0, 2, 1, [1]⟩ : BinContainer).count ≤ (⟨0, 2, 1, [1]⟩ : BinContainer).size :=
  evenly_distribute_fill_invariant [1, 2] [2, 2] false 2 2
    [⟨0, 2, 0, []⟩, ⟨1, 2, 0, []⟩] ⟨[⟨0, 2, 1, [1]⟩, ⟨1, 2, 2, [2]⟩], 2, []⟩
    (by decide) (by decide) (by decide) ⟨0, 2, 1, [1]⟩ (by decide)

/-- C4: for positive item sizes, whenever the Capacity Planner succeeds the
round-robin policy returns normally (an unfitting item is dropped, never
raised), and the placed item sizes plus the skipped item sizes account
exactly for the input: their sums agree with the input sum and placed plus
skipped items are a permutation of the input collection. -/
theorem evenly_distribute_returns_and_conserves (values bin_sizes : List Nat)
    (large : Bool) (bin_count : Nat)
    (hpos : ∀ v ∈ values, 0 < v)
    (hbc : compute_bin_count values bin_sizes = some bin_count) :
    (evenly_distribute values bin_sizes large).isSome = true ∧
    ∀ st, evenly_distribute values bin_sizes large = some st →
      (st.bins.map (fun b => b.items.sum)).sum + st.skipped.sum = values.sum ∧
      (((st.bins.map (fun b => b.items)).flatten ++ st.skipped).Perm values) := by
  have hn := compute_bin_count_bound values bin_sizes bin_count hbc
  have hao := allocate_bins_of_le bin_sizes bin_count hn
  obtain ⟨bl, hbl⟩ := Option.isSome_iff_exists.1 hao
  obtain ⟨hlen, hfresh⟩ := allocate_bins_fresh bin_sizes bin_count bl hbl
  have hunfold : evenly_distribute values bin_sizes large =
      evenPlace bin_count ⟨bl, 0, []⟩
        (split_values_by_size values large).flatten := by
    rw [evenly_distribute, hbc]
    simp only
    rw [hbl]
  have hsucc : ∃ st2, evenPlace bin_count ⟨bl, 0, []⟩
      (split_values_by_size values large).flatten = some st2 := by
    by_cases hbc0 : bin_count = 0
    · subst hbc0
      have hsum0 := compute_bin_count_zero values bin_sizes hbc
      have hnil := eq_nil_of_sum_zero values hpos hsum0
      subst hnil
      rw [split_values_by_size_nil]
      exact ⟨_, rfl⟩
    · exact evenPlace_total _ bin_count ⟨bl, 0, []⟩ hbc0 hlen
  obtain ⟨st2, hst2⟩ := hsucc
  constructor
  · rw [hunfold, hst2]
    rfl
  · intro st hst
    rw [hunfold, hst2, Option.some.injEq] at hst
    subst hst
    obtain ⟨-, -, hsum, hperm, -, hitems⟩ := evenPlace_props _ _ _ _ hst2
    simp only [List.sum_nil, List.append_nil, Nat.add_zero] at hsum hperm
    have hinv0 : ∀ b ∈ bl, b.count = b.items.sum := by
      intro b hb
      obtain ⟨h1, h2⟩ := hfresh b hb
      simp [h1, h2]
    have hcnt := hitems hinv0
    have hz : ((bl.map fun b => b.count).sum) = 0 := by
      refine List.sum_eq_zero ?_
      intro x hx
      obtain ⟨b, hb, hbx⟩ := List.mem_map.1 hx
      rw [← hbx]
      exact (hfresh b hb).1
    have hfl : ((bl.map (fun b => b.items)).flatten) = [] :=
      flatten_items_nil bl (fun b hb => (hfresh b hb).2)
    have hgs := split_flatten_sum values large
    have hgp : ((split_values_by_size values large).flatten).Perm values := by
      rw [split_flatten_eq_sorted]
      exact sorted_list_perm values large
    constructor
    · have hcongr : st2.bins.map (fun b => b.items.sum) =
          st2.bins.map (fun b => b.count) :=
        List.map_congr_left (fun b hb => (hcnt b hb).symm)
      rw [hcongr]
      omega
    · rw [hfl, List.nil_append] at hperm
      exact hperm.trans hgp

/-- Witness for C4: items 3 and 1 into capacities 3 and 1; the size-3 item is
assigned to the second bin, does not fit, and is skipped; sums and multiset
are conserved. -/
theorem evenly_distribute_returns_and_conserves_witness :
    ((([⟨0, 3, 1, [1]⟩, ⟨1, 1, 0, []⟩] : List BinContainer).map
        (fun b => b.items.sum)).sum + ([3] : List Nat).sum =
      ([3, 1] : List Nat).sum) ∧
    ((([⟨0, 3, 1, [1]⟩, ⟨1, 1, 0, []⟩] : List BinContainer).map
        (fun b : BinContainer => b.items)).flatten ++ [3]).Perm [3, 1] :=
  (evenly_distribute_returns_and_conserves [3, 1] [3, 1] false 2
    (by decide) (by decide)).2
    ⟨[⟨0, 3, 1, [1]⟩, ⟨1, 1, 0, []⟩], 2, [3]⟩ (by decide)

/-- C5: in `evenly_distribute` over positive item sizes, the state reached
after the first k grouped items has placement counter exactly k, processing
the next item is exactly one round-robin step from that state, and that step
offers the k-th item to bin `k mod bin_count`, incrementing the counter to
k + 1 whether the item is placed or skipped — so earlier drops never change
later items' target bins. -/
theorem evenly_distribute_round_robin_cadence (values bin_sizes : List Nat)
    (large : Bool) (bin_count k : Nat) (bin_list : List BinContainer)
    (st : EvenState) (x : Nat)
    (hpos : ∀ v ∈ values, 0 < v)
    (hbc : compute_bin_count values bin_sizes = some bin_count)
    (hbl : allocate_bins bin_sizes bin_count = some bin_list)
    (hx : ((split_values_by_size values large).flatten)[k]? = some x)
    (h : evenPlace bin_count ⟨bin_list, 0, []⟩
        (((split_values_by_size values large).flatten).take k) = some st) :
    st.nidx = k ∧
    evenPlace bin_count ⟨bin_list, 0, []⟩
        (((split_values_by_size values large).flatten).take (k + 1)) =
      evenStep bin_count st x ∧
    ∃ b, st.bins[k % bin_count]? = some b ∧
      evenStep bin_count st x =
        some (if can_add_to_bin b x = true
          then ⟨st.bins.set (k % bin_count) (b.append x), k + 1, st.skipped⟩
          else ⟨st.bins, k + 1, st.skipped ++ [x]⟩) := by
  have hklen : k < ((split_values_by_size values large).flatten).length :=
    (List.getElem?_eq_some.1 hx).1
  have hbc0 : bin_count ≠ 0 := by
    intro h0
    subst h0
    have hsum0 := compute_bin_count_zero values bin_sizes hbc
    have hnil := eq_nil_of_sum_zero values hpos hsum0
    subst hnil
    rw [split_values_by_size_nil] at hx
    simp at hx
  obtain ⟨hnidx, hlen, -, -, -, -⟩ := evenPlace_props _ _ _ _ h
  have htk : (((split_values_by_size values large).flatten).take k).length = k := by
    simp only [List.length_take]
    omega
  have hn : st.nidx = k := by
    simp only at hnidx
    rw [htk] at hnidx
    omega
  refine ⟨hn, ?_, ?_⟩
  · have hts : ((split_values_by_size values large).flatten).take (k + 1) =
        ((split_values_by_size values large).flatten).take k ++ [x] := by
      rw [List.take_succ, hx]
      rfl
    rw [hts, evenPlace_append, h]
    simp only
    exact evenPlace_singleton bin_count st x
  · have hlenst : st.bins.length = bin_count := by
      simp only at hlen
      rw [hlen]
      exact (allocate_bins_fresh bin_sizes bin_count bin_list hbl).1
    have hlt : k % bin_count < st.bins.length := by
      rw [hlenst]
      exact Nat.mod_lt _ (Nat.pos_of_ne_zero hbc0)
    have hbsome : ∃ b, st.bins[k % bin_count]? = some b := by
      rw [List.getElem?_eq_getElem hlt]
      exact ⟨_, rfl⟩
    obtain ⟨b, hb⟩ := hbsome
    refine ⟨b, hb, ?_⟩
    rw [evenStep, if_neg hbc0, hn, hb]
    simp only
    by_cases hfit : can_add_to_bin b x = true
    · simp only [if_pos hfit]
    · simp only [if_neg hfit]

/-- Witness for C5: with items 1, 2 in two bins of capacity 2, the state
after one item has counter 1 and processing the second item is one step. -/
theorem evenly_distribute_round_robin_cadence_witness :
    (⟨[⟨0, 2, 1, [1]⟩, ⟨1, 2, 0, []⟩], 1, []⟩ : EvenState).nidx = 1 ∧
    evenPlace 2 ⟨[⟨0, 2, 0, []⟩, ⟨1, 2, 0, []⟩], 0, []⟩
        (((split_values_by_size [1, 2] false).flatten).take 2) =
      evenStep 2 ⟨[⟨0, 2, 1, [1]⟩, ⟨1, 2, 0, []⟩], 1, []⟩ 2 := by
  have h := evenly_distribute_round_robin_cadence [1, 2] [2, 2] false 2 1
    [⟨0, 2, 0, []⟩, ⟨1, 2, 0, []⟩] ⟨[⟨0, 2, 1, [1]⟩, ⟨1, 2, 0, []⟩], 1, []⟩ 2
    (by decide) (by decide) (by decide) (by decide) (by decide)
  exact ⟨h.1, h.2.1⟩

/-- C10: for an empty item collection and any capacity list, the planner
returns zero bins, and both policies return an empty bin sequence without
raising any error; in particular the round-robin loop body is never entered
(a zero bin count would make any entered loop body fail on the modulo, so a
normal return shows it was not entered). -/
theorem empty_items_policies (bin_sizes : List Nat) (large : Bool) :
    compute_bin_count [] bin_sizes = some 0 ∧
    order_sequentially [] bin_sizes large = some [] ∧
    evenly_distribute [] bin_sizes large = some ⟨[], 0, []⟩ := by
  have hc : compute_bin_count [] bin_sizes = some 0 := by
    cases bin_sizes with
    | nil => rfl
    | cons c rest => simp [compute_bin_count, cbc_walk]
  refine ⟨hc, ?_, ?_⟩
  · simp [order_sequentially, hc, allocate_bins, split_values_by_size_nil,
      seqPlace]
  · simp [evenly_distribute, hc, allocate_bins, split_values_by_size_nil,
      evenPlace]

example : compute_bin_count [1, 2, 1] [30] = some 1 := by decide
example : compute_bin_count (List.replicate 45 1) [30, 30, 30, 30] = some 2 := by decide
example : compute_bin_count (List.replicate 57 1 ++ List.replicate 38 2)
    [2, 40, 40, 40, 40] = some 5 := by decide
example : compute_bin_count [5] [1, 2] = none := by decide
example : split_values_by_size [1, 2, 1] true = [[2], [1, 1]] := by decide
example : split_values_by_size [] true = [] := by decide
example : order_sequentially [1, 2, 1] [30] true =
    some [⟨0, 30, 4, [2, 1, 1]⟩] := by decide
example : order_sequentially [3, 3] [3, 1, 100] false =
    some [⟨0, 3, 3, [3]⟩, ⟨1, 1, 3, [3]⟩, ⟨2, 100, 0, []⟩] := by decide
example : evenly_distribute [1, 1, 1, 1] [2, 2] false =
    some ⟨[⟨0, 2, 2, [1, 1]⟩, ⟨1, 2, 2, [1, 1]⟩], 4, []⟩ := by decide

end BinPacker
